import Mathlib

/-!
Verification development for the unnamed note app's in-memory model
(`src/model.ts`, here `src/unnamed/part_000`, first document) and the
navigation-tree builder (`src/renderer/tree.ts`).

The TypeScript classes are shallowly embedded as pure Lean functions over an
explicit `Store` record.  Fallible operations (which in JS would throw a
`TypeError` on a missing record) return `Option`.  The asynchronous
persistence coordinator (`Model.save`) is embedded separately as a small-step
event machine over `SaveState`, with the microtask semantics of
`await`/`then` made explicit.
-/

namespace UnnamedNote

/-! ## Locale comparison

`model.ts` compares tag and directory names with
`a.localeCompare(b, undefined, { sensitivity: 'accent' }) == 0`.
Under ICU semantics, sensitivity `'accent'` treats strings that differ in
base letter or accent as unequal, and strings that differ only in case as
equal.  We model equality under this collation, on the Basic Latin and
Latin-1 repertoire, as equality after mapping uppercase letters (ASCII
`A`-`Z` and Latin-1 `À`-`Þ` except `×`) to their lowercase forms.  Accented
letters stay distinct from their base letters. -/

def charFold (c : Char) : Char :=
  if 65 ≤ c.toNat ∧ c.toNat ≤ 90 then Char.ofNat (c.toNat + 32)
  else if 192 ≤ c.toNat ∧ c.toNat ≤ 222 ∧ c.toNat ≠ 215 then Char.ofNat (c.toNat + 32)
  else c

def caseFold (s : String) : String := ⟨s.data.map charFold⟩

/-- `a.localeCompare(b, undefined, { sensitivity: 'accent' }) == 0`. -/
def localeEqAccent (a b : String) : Bool := caseFold a == caseFold b

/-! ## Data model -/

/-- Variant payload of a node; the discriminant plus the fields specific to
each of `TextNode`, `ImageNode`, `AnchorNode`, `DirectoryNode`. -/
inductive NodeData where
  | text (content : String)
  | image (fileID : String) (description : Option String)
  | anchor (contentURL contentType : String)
      (contentTitle contentDescription : Option String)
      (contentImageFileID : Option String)
      (contentModified : Option Nat) (contentAccessed : Nat)
  | directory (name : String)
deriving DecidableEq

inductive NodeType where
  | text | image | anchor | directory
deriving DecidableEq

/-- A `Node` of `model.ts`.  `depth` is not declared in the TS interface:
it is the extra property that `tree.ts` writes onto node objects
(`node.depth = depth`); JS objects being open records, we carry it as an
optional field that is absent (`none`) on freshly constructed nodes. -/
structure Node where
  id : String
  created : Nat
  modified : Nat
  tags : Option (List String)
  index : Nat
  parentID : Option String
  depth : Option Nat
  data : NodeData
deriving DecidableEq

def Node.type (n : Node) : NodeType :=
  match n.data with
  | .text _ => .text
  | .image _ _ => .image
  | .anchor _ _ _ _ _ _ _ => .anchor
  | .directory _ => .directory

def Node.isDirectory (n : Node) : Bool := n.type == .directory

/-- `(n as DirectoryNode).name`; on a non-directory node the JS property read
yields `undefined` (which `Array.prototype.join` renders as the empty
string), modelled as `""`. -/
def Node.dirName (n : Node) : String :=
  match n.data with
  | .directory name => name
  | _ => ""

structure File where
  id : String
  type : String
  name : Option String
  url : Option String
  modified : Option Nat
  accessed : Nat
deriving DecidableEq

structure Tag where
  id : String
  name : String
deriving DecidableEq

/-- `ReservedID.Trash` -/
def reservedTrash : String := "trash"

/-- The observable collections of `Model`, together with the supplies that
stand in for the ambient runtime: `nextId` feeds `uuidv4()` (as distinct
strings `"u0", "u1", ...`), `clock` feeds `bridge.now()`, and
`removedBlobs` records the calls made to `bridge.removeFile` (host blob
deletion), in order. -/
structure Store where
  nodes : List Node
  files : List File
  tags : List Tag
  nextId : Nat
  clock : Nat
  removedBlobs : List String
deriving DecidableEq

def emptyStore : Store :=
  { nodes := [], files := [], tags := [], nextId := 0, clock := 0, removedBlobs := [] }

/-- `uuidv4()` -/
def freshId (s : Store) : String × Store :=
  ("u" ++ Nat.repr s.nextId, { s with nextId := s.nextId + 1 })

/-- `bridge.now()` -/
def bridgeNow (s : Store) : Nat × Store :=
  (s.clock, { s with clock := s.clock + 1 })

/-! ## Tags (`Model.findTag`, `Model.createTag`) -/

def findTag (tags : List Tag) (name : String) : Option Tag :=
  tags.find? (fun t => localeEqAccent t.name name)

def createTag (name : String) (s : Store) : String × Store :=
  let (id, s) := freshId s
  (id, { s with tags := s.tags ++ [{ id := id, name := name }] })

/-! ## Nodes -/

/-- `Model.addNode` (an immer `push` producing a new snapshot). -/
def addNode (node : Node) (s : Store) : Store :=
  { s with nodes := s.nodes ++ [node] }

/-- `Model.getNextIndex` -/
def getNextIndex (s : Store) : Nat := s.nodes.length

/-- `tags?.length == 0` normalization shared by all node constructors. -/
def normTags (tags : Option (List String)) : Option (List String) :=
  if tags = some [] then none else tags

/-- `Model.addTextNode` (the trailing `save()` does not touch the store). -/
def addTextNode (text : String) (timeStamp : Nat) (parentID : Option String)
    (tags : Option (List String)) (s : Store) : Node × Store :=
  let (id, s) := freshId s
  let node : Node :=
    { id := id, created := timeStamp, modified := timeStamp, tags := normTags tags,
      index := getNextIndex s, parentID := parentID, depth := none, data := .text text }
  (node, addNode node s)

/-- `Model.addFile` -/
def addFile (file : File) (s : Store) : Store :=
  { s with files := s.files ++ [file] }

/-- `Model.addImageNode` -/
def addImageNode (file : File) (timeStamp : Nat) (parentID : Option String)
    (tags : Option (List String)) (s : Store) : Node × Store :=
  let (id, s) := freshId s
  let node : Node :=
    { id := id, created := timeStamp, modified := timeStamp, tags := normTags tags,
      index := getNextIndex s, parentID := parentID, depth := none,
      data := .image file.id none }
  (node, addNode node (addFile file s))

/-- `Model.addDirectoryNode` (no `save()` call in the source). -/
def addDirectoryNode (name : String) (timeStamp : Nat) (parentID : Option String)
    (tags : Option (List String)) (s : Store) : Node × Store :=
  let (id, s) := freshId s
  let node : Node :=
    { id := id, created := timeStamp, modified := timeStamp, tags := normTags tags,
      index := getNextIndex s, parentID := parentID, depth := none, data := .directory name }
  (node, addNode node s)

/-- The `anchor` argument record of `Model.addAnchorNode`. -/
structure AnchorArgs where
  contentURL : String
  contentType : String
  contentTitle : Option String
  contentDescription : Option String
  contentImageFileID : Option String
  contentModified : Option Nat
  contentAccessed : Nat
deriving DecidableEq

/-- `Model.addAnchorNode` -/
def addAnchorNode (anchor : AnchorArgs) (timeStamp : Nat) (parentID : Option String)
    (tags : Option (List String)) (s : Store) : Node × Store :=
  let (id, s) := freshId s
  let node : Node :=
    { id := id, created := timeStamp, modified := timeStamp, tags := normTags tags,
      index := getNextIndex s, parentID := parentID, depth := none,
      data := .anchor anchor.contentURL anchor.contentType anchor.contentTitle
        anchor.contentDescription anchor.contentImageFileID anchor.contentModified
        anchor.contentAccessed }
  (node, addNode node s)

/-- `Model.removeFile`.  The source looks up
`this.files.get().findIndex(f => f.id == fileID)` and immediately
dereferences `this.files.get()[found].id`; when the file is absent,
`found` is `-1` and the dereference throws a `TypeError` — modelled as
`none`.  On success the blob deletion `bridge.removeFile(id)` is recorded
and the metadata record is spliced out. -/
def removeFile (fileID : String) (s : Store) : Option Store :=
  match s.files.findIdx? (fun f => f.id == fileID) with
  | none => none
  | some k =>
    match s.files[k]? with
    | none => none
    | some f =>
      some { s with
        removedBlobs := s.removedBlobs ++ [f.id],
        files := s.files.eraseIdx k }

/-- `Model.removeNode`.  Absent `id` makes the source throw
(`found.type` on `undefined`); an Image (or Anchor with a
`contentImageFileID`) cascades into `removeFile`, whose failure also
propagates.  Then the node is spliced out and every remaining node whose
`index` exceeded the removed node's `index` is decremented. -/
def removeNode (id : String) (s : Store) : Option Store :=
  match s.nodes.findIdx? (fun n => n.id == id) with
  | none => none
  | some k =>
    match s.nodes[k]? with
    | none => none
    | some found =>
      let cascade : Option Store :=
        match found.data with
        | .image fileID _ => removeFile fileID s
        | .anchor _ _ _ _ contentImageFileID _ _ =>
          match contentImageFileID with
          | some fileID => removeFile fileID s
          | none => some s
        | _ => some s
      match cascade with
      | none => none
      | some s =>
        let nodes := (s.nodes.eraseIdx k).map fun n =>
          if found.index < n.index then { n with index := n.index - 1 } else n
        some { s with nodes := nodes }

/-- `Model.getNode` -/
def getNode (nodes : List Node) (id : String) : Option Node :=
  nodes.find? (fun n => n.id == id)

/-- `Model.getChildNodes` -/
def getChildNodes (nodes : List Node) (parentID : Option String) : List Node :=
  nodes.filter (fun n => n.parentID == parentID)

/-- `Model.getChildDirectories` -/
def getChildDirectories (nodes : List Node) (parentID : Option String) : List Node :=
  nodes.filter (fun n => n.isDirectory && n.parentID == parentID)

/-- `Model.setParent`.  On an absent `id`, `foundIndex` is `-1` and the
immer recipe `n[-1].parentID = parentID` throws — modelled as `none`.
Otherwise only the found node's `parentID` is rewritten. -/
def setParent (id : String) (parentID : String) (s : Store) : Option Store :=
  match s.nodes.findIdx? (fun n => n.id == id) with
  | none => none
  | some k =>
    match s.nodes[k]? with
    | none => none
    | some n => some { s with nodes := s.nodes.set k { n with parentID := some parentID } }

/-- The `while (dirID != undefined)` walk of `Model.getPath`, with fuel to
make the possibly non-terminating loop (cyclic parent chains) a total
function: `none` is a thrown lookup error or divergence. -/
def getPathAux : Nat → List Node → Option String → List String → Option String
  | _, _, none, dirs => some ("/" ++ String.intercalate "/" dirs)
  | 0, _, some _, _ => none
  | fuel + 1, nodes, some dirID, dirs =>
    match nodes.find? (fun n => n.id == dirID) with
    | none => none
    | some found => getPathAux fuel nodes found.parentID (found.dirName :: dirs)

/-- `Model.getPath`.  The reserved Trash id short-circuits before the walk;
`nodes.length + 1` steps are enough fuel for any acyclic chain. -/
def getPath (nodes : List Node) (directoryID : String) : Option String :=
  if directoryID == reservedTrash then some "Trash"
  else getPathAux (nodes.length + 1) nodes (some directoryID) []

/-! ## Directories (`Model.findDirectory`, `Model.createDirectory`) -/

/-- `Model.findDirectory(parentID, name)` -/
def findDirectory (nodes : List Node) (parentID : Option String) (name : String) :
    Option Node :=
  nodes.find? (fun n =>
    n.isDirectory && n.parentID == parentID && localeEqAccent n.dirName name)

/-- `path.split('/')` for the single-character separator, faithful to the
JavaScript semantics (empty segments included). -/
def splitSlashAux : List Char → List Char → List String
  | [], acc => [String.mk acc.reverse]
  | c :: cs, acc =>
    if c = '/' then String.mk acc.reverse :: splitSlashAux cs []
    else splitSlashAux cs (c :: acc)

def splitSlash (path : String) : List String := splitSlashAux path.data []

/-- One iteration of the `for (const dir of dirs)` loop in
`Model.createDirectory`: reuse the directory found under the current
parent, or create a new one (stamping it with `bridge.now()`). -/
def createDirStep (s : Store) (parentID : Option String) (dir : String) :
    Store × Option String :=
  match findDirectory s.nodes parentID dir with
  | some found => (s, some found.id)
  | none =>
    let (ts, s) := bridgeNow s
    let (node, s) := addDirectoryNode dir ts parentID none s
    (s, some node.id)

/-- The `for (const dir of dirs)` loop of `Model.createDirectory`, folding
`createDirStep` over the segments while threading store and parent. -/
def runDirs (dirs : List String) (sp : Store × Option String) : Store × Option String :=
  dirs.foldl (fun sp d => createDirStep sp.1 sp.2 d) sp

/-- `Model.createDirectory(path)` (called `createDirectoryPath` in the
spec); returns the final `parentID` — `none` for a path with no segments. -/
def createDirectory (path : String) (s : Store) : Store × Option String :=
  runDirs ((splitSlash path).filter (fun d => d.length > 0)) (s, none)

/-- The node created by the `found == null` branch of `createDirStep`. -/
def createdDirNode (s : Store) (dir : String) (p : Option String) : Node :=
  (addDirectoryNode dir (bridgeNow s).1 p none (bridgeNow s).2).1

/-- The store after the `found == null` branch of `createDirStep`. -/
def createdDirStore (s : Store) (dir : String) (p : Option String) : Store :=
  (addDirectoryNode dir (bridgeNow s).1 p none (bridgeNow s).2).2

/-! ## Tree builder (`src/renderer/tree.ts`, `createTree`)

`createTree` returns the nested array `[node, children]`; we model that
shape as an inductive tree.  The source *mutates* the node object obtained
from `model.getNode` (`node.depth = depth`); since that object lives inside
the model's current `nodes` snapshot, the embedding threads the `Store` and
performs the write on the store's own node record (`setNodeDepth`). -/

mutual

inductive NTree where
  | mk (node : Node) (children : NTreeList)
deriving DecidableEq

inductive NTreeList where
  | nil
  | cons (t : NTree) (ts : NTreeList)
deriving DecidableEq

end

def NTree.node : NTree → Node
  | .mk n _ => n

def NTree.children : NTree → NTreeList
  | .mk _ c => c

def NTreeList.roots : NTreeList → List Node
  | .nil => []
  | .cons t ts => t.node :: NTreeList.roots ts

mutual

/-- All node values occurring anywhere in the nested structure. -/
def treeNodes : NTree → List Node
  | .mk n children => n :: treeNodesList children

def treeNodesList : NTreeList → List Node
  | .nil => []
  | .cons t ts => treeNodes t ++ treeNodesList ts

end

/-- `node.depth = depth`: in-place write on the node object that
`getNode` aliased out of the snapshot, i.e. on the store's own record. -/
def setNodeDepth (s : Store) (id : String) (depth : Nat) : Store :=
  match s.nodes.findIdx? (fun n => n.id == id) with
  | none => s
  | some k =>
    match s.nodes[k]? with
    | none => s
    | some n => { s with nodes := s.nodes.set k { n with depth := some depth } }

/-- A node with its (tree-builder-written) `depth` annotation erased; two
nodes with equal `stripDepth` images agree on every model field. -/
def stripDepth (n : Node) : Node := { n with depth := none }

/-- How a node list may change across a tree build: same length, and
position-wise only the `depth` annotation is (possibly) written — never
erased. -/
def nodesEvolve (old new : List Node) : Prop :=
  old.length = new.length ∧
  ∀ (j : Nat) (n : Node), old[j]? = some n →
    ∃ m, new[j]? = some m ∧ stripDepth m = stripDepth n ∧
      (n.depth.isSome = true → m.depth.isSome = true)

/-- The ids of the Directory children of `parentID`, in snapshot order: the
children the `createTree` loop recurses into. -/
def dirChildIDs (nodes : List Node) (parentID : String) : List String :=
  ((getChildNodes nodes (some parentID)).filter (fun c => c.isDirectory)).map
    (fun c => c.id)

/-- The `for (const child of ...)` loop of `createTree`, recursing (via
`treeFn`, the builder one fuel level down) on directory children only and
threading the mutated store left to right. -/
def createTreeListAux (treeFn : Store → String → Nat → Option (NTree × Store)) :
    Store → List String → Nat → Option (NTreeList × Store)
  | s, [], _ => some (.nil, s)
  | s, cid :: rest, depth =>
    match treeFn s cid depth with
    | none => none
    | some (t, s) =>
      match createTreeListAux treeFn s rest depth with
      | none => none
      | some (ts, s) => some (.cons t ts, s)

/-- `createTree(model, parentID, depth)` with fuel (the source recursion
does not terminate on a cyclic parent graph).  `none` models both the
`TypeError` on a missing node (`node.depth` on `undefined`) and
divergence. -/
def createTreeAux : Nat → Store → String → Nat → Option (NTree × Store)
  | 0, _, _, _ => none
  | fuel + 1, s, parentID, depth =>
    match getNode s.nodes parentID with
    | none => none
    | some n =>
      let captured := { n with depth := some depth }
      let s := setNodeDepth s parentID depth
      let childIDs := dirChildIDs s.nodes parentID
      match createTreeListAux (createTreeAux fuel) s childIDs (depth + 1) with
      | none => none
      | some (ts, s) => some (.mk captured ts, s)

/-! ## Persistence coordinator (`Model.save`, `Model.setStatus`)

`save()` is `async`; its body up to the first `await` runs synchronously at
the call.  If `savePromise` is non-null the call awaits it (once — the
check is an `if`, not a loop); otherwise it proceeds through the
synchronous tail `saveBody`: set the `saving` flag, emit the `"Saving..."`
status, start `bridge.writeLibrary` and store the chained promise in
`savePromise` (whose `then`-callback clears `savePromise` and the flag),
then emit the `"Saved! (...)"` status and schedule its 5 s clear.

The event machine makes the runtime's scheduling explicit: an external
`callSave` event runs a save call to its first suspension; a
`completeWrite w` event is the host storage finishing write `w`, which
runs the `then`-callback and then resumes — in registration order, within
the same microtask drain — every call that was awaiting `w`'s chained
promise; `fireTimeout sid` is the status-clear timer.  Write ids and
status ids are drawn from counters (the latter standing for `uuidv4`). -/

inductive SaveMsg where
  | savingMsg | savedMsg
deriving DecidableEq

inductive TraceEv where
  /-- `this.saving.set(b)` -/
  | setSavingFlag (b : Bool)
  /-- `this.setStatus(...)` with the fresh status id it returned -/
  | emitStatus (sid : Nat) (msg : SaveMsg)
  /-- `bridge.writeLibrary` invoked: host write `w` starts -/
  | startWrite (w : Nat)
  /-- host write `w` completes -/
  | endWrite (w : Nat)
  /-- `this.savePromise = null` in the `then`-callback -/
  | clearHandle
  /-- `this.clearStatus()` -/
  | clearStatus
deriving DecidableEq

structure SaveState where
  savePromise : Option Nat
  saving : Bool
  status : Option (Nat × SaveMsg)
  nextWrite : Nat
  nextStatus : Nat
  /-- writes started and not yet completed, in start order -/
  inFlight : List Nat
  /-- one entry per suspended `save()` call: the write whose chained
  promise it awaits, in arrival order -/
  waiters : List Nat
  /-- scheduled status-clear timers (the status id each would clear) -/
  timeouts : List Nat
  trace : List TraceEv
deriving DecidableEq

def initialSaveState : SaveState :=
  { savePromise := none, saving := false, status := none, nextWrite := 0,
    nextStatus := 0, inFlight := [], waiters := [], timeouts := [], trace := [] }

/-- `Model.setStatus(message)`: fresh id, publish, return the id. -/
def setStatus (msg : SaveMsg) (s : SaveState) : Nat × SaveState :=
  (s.nextStatus,
   { s with status := some (s.nextStatus, msg), nextStatus := s.nextStatus + 1,
            trace := s.trace ++ [.emitStatus s.nextStatus msg] })

/-- The synchronous tail of `save()` after the guard. -/
def saveBody (s : SaveState) : SaveState :=
  let s := { s with saving := true, trace := s.trace ++ [.setSavingFlag true] }
  let (_, s) := setStatus .savingMsg s
  let w := s.nextWrite
  let s := { s with nextWrite := w + 1, inFlight := s.inFlight ++ [w],
                    savePromise := some w, trace := s.trace ++ [.startWrite w] }
  let (savedID, s) := setStatus .savedMsg s
  { s with timeouts := s.timeouts ++ [savedID] }

inductive SaveEvent where
  /-- a `save()` call arrives -/
  | callSave
  /-- host storage completes write `w` -/
  | completeWrite (w : Nat)
  /-- the 5 s `setTimeout` for status `sid` fires -/
  | fireTimeout (sid : Nat)
deriving DecidableEq

/-- Resume, in order, the suspended calls that awaited write `w`; each runs
its synchronous tail before the next (microtask drain, no external event
interleaves). -/
def resumeWaiters : List Nat → Nat → SaveState → SaveState
  | [], _, s => s
  | v :: rest, w, s =>
    if v = w then resumeWaiters rest w (saveBody s)
    else resumeWaiters rest w s

def saveStep (ev : SaveEvent) (s : SaveState) : Option SaveState :=
  match ev with
  | .callSave =>
    match s.savePromise with
    | some w => some { s with waiters := s.waiters ++ [w] }
    | none => some (saveBody s)
  | .completeWrite w =>
    if w ∈ s.inFlight then
      let s := { s with
        inFlight := s.inFlight.erase w,
        trace := s.trace ++ [TraceEv.endWrite w, TraceEv.clearHandle, TraceEv.setSavingFlag false],
        savePromise := none, saving := false }
      let pending := s.waiters
      let s := { s with waiters := s.waiters.filter (fun v => v ≠ w) }
      some (resumeWaiters pending w s)
    else none
  | .fireTimeout sid =>
    if sid ∈ s.timeouts then
      let s := { s with timeouts := s.timeouts.erase sid }
      some (match s.status with
        | some (sid', _) =>
          if sid' = sid then
            { s with status := none, trace := s.trace ++ [.clearStatus] }
          else s
        | none => s)
    else none

/-- Run a schedule of external events from the idle initial state. -/
def runSave (events : List SaveEvent) : Option SaveState :=
  events.foldl (fun acc ev => acc.bind (saveStep ev)) (some initialSaveState)

/-! ## Sequences of node add/remove operations (for the index-density
invariant): one constructor per typed node constructor of `Model`, plus
`removeNode`. -/

inductive NOp where
  | addText (text : String) (ts : Nat) (parentID : Option String) (tags : Option (List String))
  | addImage (file : File) (ts : Nat) (parentID : Option String) (tags : Option (List String))
  | addDir (name : String) (ts : Nat) (parentID : Option String) (tags : Option (List String))
  | addAnchor (anchor : AnchorArgs) (ts : Nat) (parentID : Option String)
      (tags : Option (List String))
  | remove (id : String)
deriving DecidableEq

def applyOp (op : NOp) (s : Store) : Option Store :=
  match op with
  | .addText text ts parentID tags => some (addTextNode text ts parentID tags s).2
  | .addImage file ts parentID tags => some (addImageNode file ts parentID tags s).2
  | .addDir name ts parentID tags => some (addDirectoryNode name ts parentID tags s).2
  | .addAnchor anchor ts parentID tags => some (addAnchorNode anchor ts parentID tags s).2
  | .remove id => removeNode id s

def runOps (ops : List NOp) (s : Store) : Option Store :=
  ops.foldl (fun acc op => acc.bind (applyOp op)) (some s)

/-! ## Trace observations and concrete fixtures -/

def TraceEv.isStartWrite : TraceEv → Bool
  | .startWrite _ => true
  | _ => false

def TraceEv.isEndWrite : TraceEv → Bool
  | .endWrite _ => true
  | _ => false

def TraceEv.isSavedEmit : TraceEv → Bool
  | .emitStatus _ .savedMsg => true
  | _ => false

/-- One in-flight write, then two further `save()` calls queued on it, then
the host completes the first write. -/
def queuedSaves : List SaveEvent :=
  [.callSave, .callSave, .callSave, .completeWrite 0]

def mkDir (id : String) (parentID : Option String) (index : Nat) (name : String) : Node :=
  { id := id, created := 0, modified := 0, tags := none, index := index,
    parentID := parentID, depth := none, data := .directory name }

def mkText (id : String) (parentID : Option String) (index : Nat) (content : String) : Node :=
  { id := id, created := 0, modified := 0, tags := none, index := index,
    parentID := parentID, depth := none, data := .text content }

/-- Directories A ⊃ B ⊃ C. -/
def abcNodes : List Node :=
  [mkDir "a" none 0 "A", mkDir "b" (some "a") 1 "B", mkDir "c" (some "b") 2 "C"]

/-- C's parent reference dangles: no node `"b"` exists. -/
def brokenNodes : List Node :=
  [mkDir "a" none 0 "A", mkDir "c" (some "b") 1 "C"]

def cafeTags : List Tag := [{ id := "t1", name := "café" }]

def cafeTagsTwo : List Tag :=
  [{ id := "t1", name := "café" }, { id := "t2", name := "Café" }]

/-- A store holding one Image node `"n0"` that references file `"f0"`. -/
def imageStore : Store :=
  { nodes := [{ id := "n0", created := 0, modified := 0, tags := none, index := 0,
                parentID := none, depth := none, data := .image "f0" none }],
    files := [{ id := "f0", type := "image/png", name := none, url := none,
                modified := none, accessed := 0 }],
    tags := [], nextId := 1, clock := 1, removedBlobs := [] }

/-- Root directory D with one child directory E and one child text node T. -/
def treeStore : Store :=
  { nodes := [mkDir "d" none 0 "D", mkDir "e" (some "d") 1 "E",
              mkText "t" (some "d") 2 "T"],
    files := [], tags := [], nextId := 3, clock := 3, removedBlobs := [] }

/-- A store holding one Anchor node `"n1"` whose `contentImageFileID`
references file `"f1"`. -/
def anchorStore : Store :=
  { nodes := [{ id := "n1", created := 0, modified := 0, tags := none, index := 0,
                parentID := none, depth := none,
                data := .anchor "https://example.com" "text/html" none none
                  (some "f1") none 0 }],
    files := [{ id := "f1", type := "image/png", name := none, url := none,
                modified := none, accessed := 0 }],
    tags := [], nextId := 1, clock := 1, removedBlobs := [] }

/-- Abbreviation for the store a successful `removeFile fid` produces when
the record sits at position `j`: the blob deletion is recorded and the
metadata record spliced out. -/
def fileRemovedStore (s : Store) (fid : String) (j : Nat) : Store :=
  { s with
    removedBlobs := s.removedBlobs ++ [fid],
    files := s.files.eraseIdx j }

/-- Abbreviation for the node-list effect of a successful `removeNode`:
splice position `k` and renumber the indices above `found.index`. -/
def nodeRemovedStore (s : Store) (found : Node) (k : Nat) : Store :=
  { s with
    nodes := (s.nodes.eraseIdx k).map fun m =>
      if found.index < m.index then ({ m with index := m.index - 1 }) else m }

/-- The index-density invariant: the indices of the stored nodes are a
permutation of `0, ..., N-1`. -/
def IndexInv (s : Store) : Prop :=
  (s.nodes.map Node.index).Perm (List.range s.nodes.length)

/-- The op sequence used as the concrete index-density witness. -/
def densityOps : List NOp :=
  [.addText "x" 0 none none, .addText "y" 1 none none,
   .addText "z" 2 none none, .remove "u1"]

/-! # Theorems -/

/-! ## C1 — save coalescing -/

/-- **C1.** The spec guarantees that writes to host storage are strictly
serialized: N `save()` calls issued while a host write is pending should
produce N writes no two of which are in flight together.  The code's guard
is `if (this.savePromise != null) await this.savePromise;` — an `if`, not a
loop — so the two calls queued behind write 0 are both resumed by its
completion and each issues its own write with no further check: after the
schedule `queuedSaves` the model has writes 1 and 2 in flight
simultaneously (their start/end intervals overlap), even though, as
claimed, exactly one write per call (three in total) was issued. -/
theorem save_overlapping_writes_after_queued_calls :
    (runSave queuedSaves).map SaveState.inFlight = some [1, 2] ∧
    (runSave queuedSaves).map (fun s => s.trace.countP TraceEv.isStartWrite) = some 3 ∧
    (runSave queuedSaves).map SaveState.trace = some
      [.setSavingFlag true, .emitStatus 0 .savingMsg, .startWrite 0, .emitStatus 1 .savedMsg,
       .endWrite 0, .clearHandle, .setSavingFlag false,
       .setSavingFlag true, .emitStatus 2 .savingMsg, .startWrite 1, .emitStatus 3 .savedMsg,
       .setSavingFlag true, .emitStatus 4 .savingMsg, .startWrite 2, .emitStatus 5 .savedMsg] := by
  refine ⟨by decide, by decide, by decide⟩

/-! ## C2 — findTag collation -/

/-- **C2, counterexample.**  The claim says `findTag` is accent-insensitive
and that `findTag("Cafe")` finds a stored tag named `"café"`.
`localeCompare(..., { sensitivity: 'accent' })` is accent-*sensitive*
(only case differences are ignored), so the lookup misses. -/
theorem findTag_accent_sensitive_cex :
    findTag cafeTags "Cafe" = none := by decide

/-- **C2, amended.**  `findTag` performs a case-insensitive but
accent-sensitive exact match, returning the first match or none: on a
store containing `"café"`, `findTag "Café"` (case difference only) finds
it, while `findTag "Cafe"` (base letter for `é`) and `findTag "cafe "`
(trailing space) return none; with both `"café"` and `"Café"` stored,
`findTag "CAFÉ"` returns the first. -/
theorem findTag_case_insensitive_accent_sensitive :
    findTag cafeTags "Café" = some { id := "t1", name := "café" } ∧
    findTag cafeTags "Cafe" = none ∧
    findTag cafeTags "cafe " = none ∧
    findTag cafeTagsTwo "CAFÉ" = some { id := "t1", name := "café" } := by
  refine ⟨by decide, by decide, by decide, by decide⟩

/-! ## C4 — save status emission order -/

/-- **C4, counterexample.**  The claim says the `"saved (elapsed ms)"`
status is emitted only after the host write completes and the in-flight
handle and saving flag are cleared.  In the code the status is emitted
synchronously right after `bridge.writeLibrary` is started: in a run
consisting of a single `save()` call whose write never completes, the
saved status has already been emitted while no write ever ended. -/
theorem saved_status_before_completion_cex :
    (runSave [.callSave]).map (fun s => s.trace.any TraceEv.isSavedEmit) = some true ∧
    (runSave [.callSave]).map (fun s => s.trace.any TraceEv.isEndWrite) = some false := by
  refine ⟨by decide, by decide⟩

/-- **C4, amended.**  Within one `save()` the emission order is: saving
flag set, `"saving"` status, write started, then the `"saved"` status with
a fresh status id — all synchronously, *before* the write completes; the
in-flight handle and the saving flag are cleared only later, when the
write completes. -/
theorem save_status_order :
    (runSave [.callSave, .completeWrite 0]).map SaveState.trace = some
      [.setSavingFlag true, .emitStatus 0 .savingMsg, .startWrite 0, .emitStatus 1 .savedMsg,
       .endWrite 0, .clearHandle, .setSavingFlag false] ∧
    (1 : Nat) ≠ 0 := by
  refine ⟨by decide, by decide⟩

/-! ## C6 — path resolution -/

/-- **C6.**  `getPath` walks the parent chain collecting directory names
into a `/`-joined absolute path (`/A/B/C` for A ⊃ B ⊃ C); the reserved
`"trash"` id short-circuits to the literal `"Trash"` on every store; and an
unresolvable reference at any point of the walk yields an error (`none`)
rather than a path — both in general at the point of lookup failure, and on
the concrete store whose chain dangles. -/
theorem getPath_spec :
    getPath abcNodes "c" = some "/A/B/C" ∧
    (∀ nodes : List Node, getPath nodes reservedTrash = some "Trash") ∧
    (∀ (nodes : List Node) (fuel : Nat) (dirID : String) (dirs : List String),
      nodes.find? (fun n => n.id == dirID) = none →
      getPathAux (fuel + 1) nodes (some dirID) dirs = none) ∧
    getPath brokenNodes "c" = none := by
  refine ⟨by decide, ?_, ?_, by decide⟩
  · intro nodes
    simp [getPath, reservedTrash]
  · intro nodes fuel dirID dirs h
    simp [getPathAux, h]

/-- Witness for `getPath_spec`: its lookup-failure clause applied at a
concrete input. -/
theorem getPath_spec_witness :
    getPathAux (0 + 1) [] (some "x") [] = none :=
  getPath_spec.2.2.1 [] 0 "x" [] rfl

/-! ## C9 — setParent frame property -/

/-- **C9.**  For a node id present in the store, `setParent` rewrites only
that node's `parentID`: the node keeps its `index`, timestamps, `tags` and
variant payload (content/type), every other node is unchanged, and the
file, tag and supply components of the store are untouched. -/
theorem setParent_frame (s : Store) (id pid : String)
    (hpresent : ∃ n ∈ s.nodes, n.id = id) :
    ∃ (k : Nat) (n : Node) (s' : Store),
      s.nodes[k]? = some n ∧ n.id = id ∧
      setParent id pid s = some s' ∧
      s'.nodes = s.nodes.set k { n with parentID := some pid } ∧
      s'.nodes[k]? = some { n with parentID := some pid } ∧
      (∀ j, j ≠ k → s'.nodes[j]? = s.nodes[j]?) ∧
      ({ n with parentID := some pid } : Node).index = n.index ∧
      ({ n with parentID := some pid } : Node).created = n.created ∧
      ({ n with parentID := some pid } : Node).modified = n.modified ∧
      ({ n with parentID := some pid } : Node).tags = n.tags ∧
      ({ n with parentID := some pid } : Node).data = n.data ∧
      s'.files = s.files ∧ s'.tags = s.tags ∧ s'.removedBlobs = s.removedBlobs ∧
      s'.nextId = s.nextId ∧ s'.clock = s.clock := by
  obtain ⟨n0, hmem, hid⟩ := hpresent
  have hex : ∃ x, x ∈ s.nodes ∧ (fun m => m.id == id) x = true :=
    ⟨n0, hmem, by simp [hid]⟩
  have hfi := List.findIdx?_eq_some_of_exists hex
  obtain ⟨hk, hp, -⟩ := List.findIdx?_eq_some_iff_getElem.mp hfi
  have hsp : setParent id pid s = some { s with
      nodes := s.nodes.set (s.nodes.findIdx (fun m => m.id == id))
        { s.nodes.get ⟨s.nodes.findIdx (fun m => m.id == id), hk⟩ with parentID := some pid } } := by
    simp only [setParent, hfi, List.getElem?_eq_getElem hk, List.get_eq_getElem]
  refine ⟨s.nodes.findIdx (fun m => m.id == id),
    s.nodes.get ⟨s.nodes.findIdx (fun m => m.id == id), hk⟩, _,
    by simp [List.getElem?_eq_getElem hk], by simpa using hp, hsp, rfl,
    by simp [List.getElem?_set_self hk], ?_, rfl, rfl, rfl, rfl, rfl,
    rfl, rfl, rfl, rfl, rfl⟩
  intro j hj
  exact List.getElem?_set_ne (Ne.symm hj)

/-- Witness for `setParent_frame` at the concrete one-node store. -/
theorem setParent_frame_witness :
    ∃ (k : Nat) (n : Node) (s' : Store),
      imageStore.nodes[k]? = some n ∧ n.id = "n0" ∧
      setParent "n0" "p1" imageStore = some s' ∧
      s'.nodes = imageStore.nodes.set k { n with parentID := some "p1" } ∧
      s'.nodes[k]? = some { n with parentID := some "p1" } ∧
      (∀ j, j ≠ k → s'.nodes[j]? = imageStore.nodes[j]?) ∧
      ({ n with parentID := some "p1" } : Node).index = n.index ∧
      ({ n with parentID := some "p1" } : Node).created = n.created ∧
      ({ n with parentID := some "p1" } : Node).modified = n.modified ∧
      ({ n with parentID := some "p1" } : Node).tags = n.tags ∧
      ({ n with parentID := some "p1" } : Node).data = n.data ∧
      s'.files = imageStore.files ∧ s'.tags = imageStore.tags ∧
      s'.removedBlobs = imageStore.removedBlobs ∧
      s'.nextId = imageStore.nextId ∧ s'.clock = imageStore.clock :=
  setParent_frame imageStore "n0" "p1" (by decide)

/-! ## C5 — cascade deletion -/

/-- **C5, counterexample.**  The claim says calling the file-removal
operation independently does not error when the owning node (and hence the
file record) was already removed.  Removing the image node `"n0"` succeeds
and cascades away file `"f0"`; the subsequent `removeFile("f0")` then
dereferences `this.files.get()[-1].id` and throws (`none`). -/
theorem removeFile_after_cascade_errors_cex :
    (removeNode "n0" imageStore).isSome = true ∧
    (removeNode "n0" imageStore).bind (removeFile "f0") = none := by
  refine ⟨by decide, by decide⟩

/-- **C5, amended.**  Removing an Image node removes its referenced file
exactly once — one `bridge.removeFile` call and one spliced metadata
record — and likewise an Anchor node with a `contentImageFileID`; but
calling `removeFile` independently when the record is already gone throws
an error (modelled `none`) rather than succeeding. -/
theorem removeNode_cascade_spec :
    (∀ (s : Store) (id : String) (k : Nat) (n : Node) (fid : String)
        (desc : Option String) (j : Nat),
      s.nodes.findIdx? (fun m => m.id == id) = some k →
      s.nodes[k]? = some n →
      n.data = .image fid desc →
      s.files.findIdx? (fun g => g.id == fid) = some j →
      ∃ s', removeNode id s = some s' ∧
        s'.removedBlobs = s.removedBlobs ++ [fid] ∧
        s'.files = s.files.eraseIdx j) ∧
    (∀ (s : Store) (id : String) (k : Nat) (n : Node) (fid : String)
        (u ty : String) (ti de : Option String) (cm : Option Nat) (ca : Nat) (j : Nat),
      s.nodes.findIdx? (fun m => m.id == id) = some k →
      s.nodes[k]? = some n →
      n.data = .anchor u ty ti de (some fid) cm ca →
      s.files.findIdx? (fun g => g.id == fid) = some j →
      ∃ s', removeNode id s = some s' ∧
        s'.removedBlobs = s.removedBlobs ++ [fid] ∧
        s'.files = s.files.eraseIdx j) ∧
    (∀ (s : Store) (fid : String),
      s.files.findIdx? (fun g => g.id == fid) = none → removeFile fid s = none) := by
  have hfile : ∀ (s : Store) (fid : String) (j : Nat),
      s.files.findIdx? (fun g => g.id == fid) = some j →
      removeFile fid s = some (fileRemovedStore s fid j) := by
    intro s fid j hj
    obtain ⟨hjlt, hpj, -⟩ := List.findIdx?_eq_some_iff_getElem.mp hj
    have hid : s.files[j].id = fid := by simpa using hpj
    simp only [removeFile, hj, List.getElem?_eq_getElem hjlt, hid, fileRemovedStore]
  refine ⟨?_, ?_, ?_⟩
  · intro s id k n fid desc j hk hn hdata hj
    obtain ⟨hklt, rfl⟩ := List.getElem?_eq_some_iff.mp hn
    have hrm : removeNode id s = some
        (nodeRemovedStore (fileRemovedStore s fid j) (s.nodes.get ⟨k, hklt⟩) k) := by
      simp only [removeNode, hk, List.getElem?_eq_getElem hklt, hdata, hfile s fid j hj,
        List.get_eq_getElem, nodeRemovedStore, fileRemovedStore]
    exact ⟨_, hrm, rfl, rfl⟩
  · intro s id k n fid u ty ti de cm ca j hk hn hdata hj
    obtain ⟨hklt, rfl⟩ := List.getElem?_eq_some_iff.mp hn
    have hrm : removeNode id s = some
        (nodeRemovedStore (fileRemovedStore s fid j) (s.nodes.get ⟨k, hklt⟩) k) := by
      simp only [removeNode, hk, List.getElem?_eq_getElem hklt, hdata, hfile s fid j hj,
        List.get_eq_getElem, nodeRemovedStore, fileRemovedStore]
    exact ⟨_, hrm, rfl, rfl⟩
  · intro s fid hnone
    simp only [removeFile, hnone]

/-- Witness for `removeNode_cascade_spec`: all three clauses at concrete
stores. -/
theorem removeNode_cascade_spec_witness :
    (∃ s', removeNode "n0" imageStore = some s' ∧
      s'.removedBlobs = imageStore.removedBlobs ++ ["f0"] ∧
      s'.files = imageStore.files.eraseIdx 0) ∧
    (∃ s', removeNode "n1" anchorStore = some s' ∧
      s'.removedBlobs = anchorStore.removedBlobs ++ ["f1"] ∧
      s'.files = anchorStore.files.eraseIdx 0) ∧
    removeFile "f9" emptyStore = none :=
  ⟨removeNode_cascade_spec.1 imageStore "n0" 0
      { id := "n0", created := 0, modified := 0, tags := none, index := 0,
        parentID := none, depth := none, data := .image "f0" none }
      "f0" none 0 (by decide) (by decide) rfl (by decide),
   removeNode_cascade_spec.2.1 anchorStore "n1" 0
      { id := "n1", created := 0, modified := 0, tags := none, index := 0,
        parentID := none, depth := none,
        data := .anchor "https://example.com" "text/html" none none (some "f1") none 0 }
      "f1" "https://example.com" "text/html" none none none 0 0
      (by decide) (by decide) rfl (by decide),
   removeNode_cascade_spec.2.2 emptyStore "f9" (by decide)⟩

/-! ## C3 — index density -/

theorem perm_getElem_cons_eraseIdx (l : List α) :
    ∀ (k : Nat) (h : k < l.length), l.Perm (l[k] :: l.eraseIdx k) := by
  induction l with
  | nil => intro k h; simp at h
  | cons a t ih =>
    intro k h
    cases k with
    | zero => simp
    | succ k =>
      have hk : k < t.length := Nat.lt_of_succ_lt_succ h
      have step := (ih k hk).cons a
      simpa using step.trans (List.Perm.swap _ _ _)

theorem map_eraseIdx (f : α → β) :
    ∀ (l : List α) (k : Nat), (l.eraseIdx k).map f = (l.map f).eraseIdx k := by
  intro l
  induction l with
  | nil => intro k; simp
  | cons a t ih =>
    intro k
    cases k with
    | zero => simp
    | succ k => simp [ih k]

theorem range'_map_sub : ∀ (m s : Nat),
    (List.range' (s + 1) m).map (fun j => j - 1) = List.range' s m := by
  intro m
  induction m with
  | zero => intro s; rfl
  | succ m ih =>
    intro s
    simp only [List.range'_succ, List.map_cons, Nat.add_sub_cancel]
    rw [ih (s + 1)]

/-- `range N` split around a value `i < N`. -/
theorem range_split (N i : Nat) (h : i < N) :
    List.range N = List.range i ++ i :: List.range' (i + 1) (N - i - 1) := by
  obtain ⟨m, rfl⟩ : ∃ m, N = i + (m + 1) := ⟨N - i - 1, by omega⟩
  have e4 : i + (m + 1) - i - 1 = m := by omega
  rw [e4]
  have e1 := List.range'_append_1 0 i (m + 1)
  rw [Nat.zero_add] at e1
  rw [List.range_eq_range', List.range_eq_range', ← List.range'_succ, e1, Nat.add_comm]

/-- A `range` glued back together with a `range'` tail. -/
theorem range_append_range' (N i : Nat) (h : i ≤ N) :
    List.range i ++ List.range' i (N - i) = List.range N := by
  obtain ⟨m, rfl⟩ : ∃ m, N = i + m := ⟨N - i, by omega⟩
  have e4 : i + m - i = m := by omega
  rw [e4]
  have e1 := List.range'_append_1 0 i m
  rw [Nat.zero_add] at e1
  rw [List.range_eq_range', List.range_eq_range', e1, Nat.add_comm]

/-- Removing the element at position `k` from a permutation of `[0, N)` and
decrementing every larger value yields a permutation of `[0, N-1)`. -/
theorem erase_renumber_perm {l : List Nat} {k : Nat} (hk : k < l.length)
    (h : l.Perm (List.range l.length)) :
    ((l.eraseIdx k).map (fun j => if l[k] < j then j - 1 else j)).Perm
      (List.range (l.length - 1)) := by
  have hiN : l[k] < l.length := by
    have hmem : l[k] ∈ l := List.getElem_mem hk
    simpa [List.mem_range] using h.mem_iff.mp hmem
  have h1 : (l[k] :: l.eraseIdx k).Perm (List.range l.length) :=
    (perm_getElem_cons_eraseIdx l k hk).symm.trans h
  have h3 : (List.range l.length).Perm
      (l[k] :: (List.range l[k] ++ List.range' (l[k] + 1) (l.length - l[k] - 1))) := by
    rw [range_split l.length l[k] hiN]
    exact List.perm_middle
  have h4 : (l.eraseIdx k).Perm
      (List.range l[k] ++ List.range' (l[k] + 1) (l.length - l[k] - 1)) :=
    (h1.trans h3).cons_inv
  have h5 := h4.map (fun j => if l[k] < j then j - 1 else j)
  have h6 : (List.range l[k]).map (fun j => if l[k] < j then j - 1 else j) =
      List.range l[k] := by
    rw [List.map_congr_left (g := fun j => j), List.map_id']
    intro j hj
    have : j < l[k] := List.mem_range.mp hj
    simp [Nat.not_lt.mpr (Nat.le_of_lt this)]
  have h7 : (List.range' (l[k] + 1) (l.length - l[k] - 1)).map
      (fun j => if l[k] < j then j - 1 else j) =
      List.range' l[k] (l.length - l[k] - 1) := by
    rw [List.map_congr_left (g := fun j => j - 1), range'_map_sub]
    intro j hj
    have : l[k] + 1 ≤ j := (List.mem_range'_1.mp hj).1
    simp [Nat.lt_of_succ_le this]
  have h8 : List.range l[k] ++ List.range' l[k] (l.length - l[k] - 1) =
      List.range (l.length - 1) := by
    have e5 : l.length - 1 - l[k] = l.length - l[k] - 1 := by omega
    have := range_append_range' (l.length - 1) l[k] (by omega)
    rw [e5] at this
    exact this
  rw [List.map_append, h6, h7, h8] at h5
  exact h5

theorem removeFile_nodes_eq {fid : String} {s s₂ : Store}
    (h : removeFile fid s = some s₂) :
    s₂.nodes = s.nodes ∧ s₂.nextId = s.nextId ∧ s₂.clock = s.clock := by
  simp only [removeFile] at h
  split at h
  · exact absurd h (by simp)
  · split at h
    · exact absurd h (by simp)
    · cases h
      exact ⟨rfl, rfl, rfl⟩

theorem addNode_index_inv {s : Store} {node : Node}
    (hInv : IndexInv s) (hidx : node.index = s.nodes.length) :
    IndexInv (addNode node s) := by
  have step := hInv.append_right [node.index]
  simpa [IndexInv, addNode, List.range_succ, hidx] using step

theorem removeNode_index_inv {id : String} {s s' : Store}
    (hInv : IndexInv s) (h : removeNode id s = some s') : IndexInv s' := by
  simp only [removeNode] at h
  split at h
  · exact absurd h (by simp)
  rename_i k hk
  split at h
  · exact absurd h (by simp)
  rename_i found hfound
  split at h
  · exact absurd h (by simp)
  rename_i s₂ hcas
  cases h
  obtain ⟨hklt, rfl⟩ := List.getElem?_eq_some_iff.mp hfound
  have hnodes : s₂.nodes = s.nodes := by
    rcases hchk : s.nodes[k].data with _ | ⟨fid, desc⟩ | ⟨u, ty, ti, de, cif, cm, ca⟩ | _ <;>
      rw [hchk] at hcas
    · cases hcas; rfl
    · exact (removeFile_nodes_eq hcas).1
    · rcases cif with _ | fid
      · cases hcas; rfl
      · exact (removeFile_nodes_eq hcas).1
    · cases hcas; rfl
  show IndexInv _
  unfold IndexInv
  simp only [hnodes]
  have hlen : k < (s.nodes.map Node.index).length := by simpa using hklt
  have hperm : ((s.nodes.map Node.index).eraseIdx k).map
      (fun j => if (s.nodes.map Node.index)[k] < j then j - 1 else j) |>.Perm
      (List.range ((s.nodes.map Node.index).length - 1)) :=
    erase_renumber_perm hlen (by simpa [IndexInv] using hInv)
  have hgk : (s.nodes.map Node.index)[k] = s.nodes[k].index := by simp
  have hrw : ((s.nodes.eraseIdx k).map fun m =>
        if s.nodes[k].index < m.index then ({ m with index := m.index - 1 }) else m).map
        Node.index =
      ((s.nodes.map Node.index).eraseIdx k).map
        (fun j => if (s.nodes.map Node.index)[k] < j then j - 1 else j) := by
    rw [← map_eraseIdx, List.map_map, List.map_map, hgk]
    apply List.map_congr_left
    intro m _
    by_cases hc : s.nodes[k].index < m.index <;> simp [hc]
  rw [List.length_map, List.length_eraseIdx_of_lt hklt]
  rw [hrw]
  simpa using hperm

theorem applyOp_index_inv {op : NOp} {s s' : Store}
    (hInv : IndexInv s) (h : applyOp op s = some s') : IndexInv s' := by
  cases op with
  | addText text ts parentID tags =>
    cases h
    exact addNode_index_inv hInv rfl
  | addImage file ts parentID tags =>
    cases h
    exact addNode_index_inv (s := addFile file _) hInv rfl
  | addDir name ts parentID tags =>
    cases h
    exact addNode_index_inv hInv rfl
  | addAnchor anchor ts parentID tags =>
    cases h
    exact addNode_index_inv hInv rfl
  | remove id => exact removeNode_index_inv hInv h

theorem runOps_none (ops : List NOp) :
    ops.foldl (fun acc op => acc.bind (applyOp op)) none = none := by
  induction ops with
  | nil => rfl
  | cons op ops ih => simpa using ih

theorem runOps_index_inv : ∀ (ops : List NOp) (s s' : Store),
    IndexInv s → runOps ops s = some s' → IndexInv s' := by
  intro ops
  induction ops with
  | nil =>
    intro s s' hInv h
    cases h
    exact hInv
  | cons op ops ih =>
    intro s s' hInv h
    have h' : ops.foldl (fun acc op => acc.bind (applyOp op)) (applyOp op s) = some s' := h
    rcases hop : applyOp op s with _ | s₁
    · rw [hop, runOps_none ops] at h'
      exact absurd h' (by simp)
    · rw [hop] at h'
      exact ih s₁ s' (applyOp_index_inv hInv hop) h'

/-- **C3.**  After every successful sequence of node add/remove operations
starting from the empty store, the multiset of `index` values over the
remaining nodes is exactly `{0, 1, ..., N-1}` (a permutation of
`range N`): insertion assigns `index` = current total node count, and
removal decrements the `index` of every node whose index exceeded the
removed node's. -/
theorem index_density (ops : List NOp) (s' : Store)
    (h : runOps ops emptyStore = some s') :
    (s'.nodes.map Node.index).Perm (List.range s'.nodes.length) :=
  runOps_index_inv ops emptyStore s' (by simp [IndexInv, emptyStore]) h

/-- Witness for `index_density`: three text nodes added, the middle one
removed. -/
theorem index_density_witness :
    ∃ s', runOps densityOps emptyStore = some s' ∧
      (s'.nodes.map Node.index).Perm (List.range s'.nodes.length) :=
  ⟨_, rfl, index_density densityOps _ rfl⟩

/-! ## C7 — idempotent path creation -/

theorem runDirs_nil (sp : Store × Option String) : runDirs [] sp = sp := rfl

theorem runDirs_cons (d : String) (rest : List String) (sp : Store × Option String) :
    runDirs (d :: rest) sp = runDirs rest (createDirStep sp.1 sp.2 d) := rfl

theorem createDirStep_found {s : Store} {p : Option String} {d : String} {found : Node}
    (h : findDirectory s.nodes p d = some found) :
    createDirStep s p d = (s, some found.id) := by
  simp only [createDirStep, h]

theorem createDirStep_notFound {s : Store} {p : Option String} {d : String}
    (h : findDirectory s.nodes p d = none) :
    createDirStep s p d = (createdDirStore s d p, some (createdDirNode s d p).id) := by
  simp only [createDirStep, h, createdDirStore, createdDirNode, addDirectoryNode, bridgeNow]

theorem createdDirStore_nodes (s : Store) (d : String) (p : Option String) :
    (createdDirStore s d p).nodes = s.nodes ++ [createdDirNode s d p] := rfl

theorem findDirectory_append_of_some {l₁ l₂ : List Node} {p : Option String} {d : String}
    {x : Node} (h : findDirectory l₁ p d = some x) :
    findDirectory (l₁ ++ l₂) p d = some x := by
  simp only [findDirectory] at h ⊢
  simp [List.find?_append, h]

theorem findDirectory_created (s : Store) (d : String) (p : Option String) (t : List Node)
    (h : findDirectory s.nodes p d = none) :
    findDirectory (s.nodes ++ createdDirNode s d p :: t) p d =
      some (createdDirNode s d p) := by
  simp only [findDirectory] at h ⊢
  rw [List.find?_append, h, Option.none_or, List.find?_cons_of_pos]
  simp [createdDirNode, addDirectoryNode, bridgeNow, addNode, Node.isDirectory, Node.type,
    Node.dirName, localeEqAccent]

theorem runDirs_nodes_prefix : ∀ (dirs : List String) (sp : Store × Option String),
    ∃ t, (runDirs dirs sp).1.nodes = sp.1.nodes ++ t := by
  intro dirs
  induction dirs with
  | nil => intro sp; exact ⟨[], by simp [runDirs_nil]⟩
  | cons d rest ih =>
    intro sp
    rw [runDirs_cons]
    rcases hf : findDirectory sp.1.nodes sp.2 d with _ | found
    · rw [createDirStep_notFound hf]
      obtain ⟨t, ht⟩ :=
        ih (createdDirStore sp.1 d sp.2, some (createdDirNode sp.1 d sp.2).id)
      refine ⟨createdDirNode sp.1 d sp.2 :: t, ?_⟩
      rw [ht, createdDirStore_nodes, List.append_assoc, List.singleton_append]
    · rw [createDirStep_found hf]
      exact ih (sp.1, some found.id)

theorem runDirs_idem : ∀ (dirs : List String) (s : Store) (p : Option String),
    runDirs dirs ((runDirs dirs (s, p)).1, p) = runDirs dirs (s, p) := by
  intro dirs
  induction dirs with
  | nil => intro s p; rfl
  | cons d rest ih =>
    intro s p
    rcases hf : findDirectory s.nodes p d with _ | found
    · simp only [runDirs_cons, createDirStep_notFound hf]
      obtain ⟨t, ht⟩ :=
        runDirs_nodes_prefix rest (createdDirStore s d p, some (createdDirNode s d p).id)
      have hfind : findDirectory
          (runDirs rest (createdDirStore s d p, some (createdDirNode s d p).id)).1.nodes
          p d = some (createdDirNode s d p) := by
        rw [ht, createdDirStore_nodes, List.append_assoc, List.singleton_append]
        exact findDirectory_created s d p t hf
      rw [createDirStep_found hfind]
      exact ih (createdDirStore s d p) (some (createdDirNode s d p).id)
    · simp only [runDirs_cons, createDirStep_found hf]
      obtain ⟨t, ht⟩ := runDirs_nodes_prefix rest (s, some found.id)
      have hfind : findDirectory (runDirs rest (s, some found.id)).1.nodes p d
          = some found := by
        rw [ht]
        exact findDirectory_append_of_some hf
      rw [createDirStep_found hfind]
      exact ih s (some found.id)

/-- **C7.**  `createDirectory` (the spec's `createDirectoryPath`) is
idempotent: for every path string and every starting store, running it a
second time changes nothing — same store, hence zero new nodes, and the
same returned leaf id; and concretely, `"a/b/c"` on the empty store creates
exactly 3 nodes (all directories) on the first call, whose second run
returns the same leaf. -/
theorem createDirectory_idempotent :
    (∀ (path : String) (s : Store),
      createDirectory path ((createDirectory path s).1) = createDirectory path s) ∧
    (createDirectory "a/b/c" emptyStore).1.nodes.length = 3 ∧
    ((createDirectory "a/b/c" emptyStore).1.nodes.all fun n => n.isDirectory) = true ∧
    (createDirectory "a/b/c" ((createDirectory "a/b/c" emptyStore).1)).1.nodes.length = 3 ∧
    (createDirectory "a/b/c" ((createDirectory "a/b/c" emptyStore).1)).2
      = (createDirectory "a/b/c" emptyStore).2 := by
  refine ⟨?_, by decide, by decide, by decide, by decide⟩
  intro path s
  exact runDirs_idem ((splitSlash path).filter (fun d => d.length > 0)) s none

/-! ## C8 / C10 — tree builder -/

theorem nodesEvolve_refl (l : List Node) : nodesEvolve l l :=
  ⟨rfl, fun _ n h => ⟨n, h, rfl, fun hd => hd⟩⟩

theorem nodesEvolve_trans {a b c : List Node}
    (h₁ : nodesEvolve a b) (h₂ : nodesEvolve b c) : nodesEvolve a c := by
  refine ⟨h₁.1.trans h₂.1, fun j n hj => ?_⟩
  obtain ⟨m, hm, hsm, hdm⟩ := h₁.2 j n hj
  obtain ⟨o, ho, hso, hdo⟩ := h₂.2 j m hm
  exact ⟨o, ho, hso.trans hsm, fun hd => hdo (hdm hd)⟩

theorem nodesEvolve_strip_map {old new : List Node} (h : nodesEvolve old new) :
    new.map stripDepth = old.map stripDepth := by
  apply List.ext_getElem?
  intro j
  rcases hj : old[j]? with _ | n
  · have hlen : old.length ≤ j := List.getElem?_eq_none_iff.mp hj
    have : new.length ≤ j := h.1 ▸ hlen
    simp [List.getElem?_eq_none hlen, List.getElem?_eq_none this]
  · obtain ⟨m, hm, hsm, -⟩ := h.2 j n hj
    simp [hj, hm, hsm]

theorem nodesEvolve_id_map {old new : List Node} (h : nodesEvolve old new) :
    new.map Node.id = old.map Node.id := by
  have h2 := congrArg (List.map Node.id) (nodesEvolve_strip_map h)
  rw [List.map_map, List.map_map] at h2
  exact h2

theorem setNodeDepth_evolve (s : Store) (id : String) (d : Nat) :
    nodesEvolve s.nodes (setNodeDepth s id d).nodes := by
  unfold setNodeDepth
  split
  · exact nodesEvolve_refl _
  rename_i k hk
  split
  · exact nodesEvolve_refl _
  rename_i n hn
  obtain ⟨hklt, hnk⟩ := List.getElem?_eq_some_iff.mp hn
  refine ⟨by simp, fun j x hj => ?_⟩
  by_cases hjk : j = k
  · subst hjk
    refine ⟨{ n with depth := some d }, by simp [List.getElem?_set_self hklt], ?_, by simp⟩
    have : x = n := by
      rw [hj] at hn
      exact Option.some.inj hn
    subst this
    rfl
  · exact ⟨x, by simp [List.getElem?_set_ne (Ne.symm hjk), hj], rfl, fun hd => hd⟩

theorem findIdx?_id_evolve {old new : List Node} (h : nodesEvolve old new) (id : String) :
    new.findIdx? (fun x => x.id == id) = old.findIdx? (fun x => x.id == id) := by
  have hmap := nodesEvolve_strip_map h
  have e1 : List.findIdx? (fun x => x.id == id) (new.map stripDepth)
      = new.findIdx? (fun x => x.id == id) := List.findIdx?_map stripDepth new
  have e2 : List.findIdx? (fun x => x.id == id) (old.map stripDepth)
      = old.findIdx? (fun x => x.id == id) := List.findIdx?_map stripDepth old
  rw [hmap] at e1
  exact e1.symm.trans e2

theorem find?_eq_some_iff_findIdx? {p : α → Bool} :
    ∀ {l : List α} {x : α},
      l.find? p = some x ↔ ∃ k, l.findIdx? p = some k ∧ l[k]? = some x := by
  intro l
  induction l with
  | nil => simp
  | cons a t ih =>
    intro x
    by_cases hpa : p a
    · simp only [List.find?_cons_of_pos _ hpa, List.findIdx?_cons, hpa, if_pos]
      constructor
      · intro hax
        cases Option.some.inj hax
        exact ⟨0, rfl, by simp⟩
      · rintro ⟨k, hk, hx⟩
        cases Option.some.inj hk
        simpa using hx
    · simp only [List.find?_cons_of_neg _ hpa, List.findIdx?_cons, hpa, if_neg,
        Bool.false_eq_true, not_false_iff, List.findIdx?_succ, ih]
      constructor
      · rintro ⟨k, hk, hx⟩
        exact ⟨k + 1, by simp [hk], by simpa using hx⟩
      · rintro ⟨k, hk, hx⟩
        rcases Option.map_eq_some'.mp hk with ⟨k', hk', rfl⟩
        exact ⟨k', hk', by simpa using hx⟩

theorem nodesEvolve_getNode {old new : List Node} (h : nodesEvolve old new)
    {id : String} {n : Node} (hold : getNode old id = some n) :
    ∃ m, getNode new id = some m ∧ stripDepth m = stripDepth n ∧
      (n.depth.isSome = true → m.depth.isSome = true) := by
  obtain ⟨k, hidx, hget⟩ := find?_eq_some_iff_findIdx?.mp hold
  obtain ⟨m, hm, hsm, hdm⟩ := h.2 k n hget
  refine ⟨m, ?_, hsm, hdm⟩
  exact find?_eq_some_iff_findIdx?.mpr ⟨k, by rw [findIdx?_id_evolve h, hidx], hm⟩

theorem stripDepth_data {m n : Node} (h : stripDepth m = stripDepth n) :
    m.data = n.data := by
  have := congrArg Node.data h
  simpa [stripDepth] using this

theorem stripDepth_isDirectory {m n : Node} (h : stripDepth m = stripDepth n) :
    m.isDirectory = n.isDirectory := by
  have hd := stripDepth_data h
  simp [Node.isDirectory, Node.type, hd]

theorem dirChildIDs_evolve {old new : List Node} (h : nodesEvolve old new)
    (pid : String) : dirChildIDs new pid = dirChildIDs old pid := by
  have hmap := nodesEvolve_strip_map h
  have key : ∀ l : List Node,
      dirChildIDs l pid =
        (((l.map stripDepth).filter (fun c => c.parentID == some pid)).filter
          (fun c => c.isDirectory)).map (fun c => c.id) := by
    intro l
    unfold dirChildIDs getChildNodes
    have e1 : (l.map stripDepth).filter (fun c => c.parentID == some pid)
        = (l.filter (fun c => c.parentID == some pid)).map stripDepth :=
      List.filter_map stripDepth l
    rw [e1]
    have e2 : ((l.filter (fun c => c.parentID == some pid)).map stripDepth).filter
          (fun c => c.isDirectory)
        = ((l.filter (fun c => c.parentID == some pid)).filter
            (fun c => c.isDirectory)).map stripDepth :=
      List.filter_map stripDepth _
    rw [e2, List.map_map]
    rfl
  rw [key new, key old, hmap]

/-- A node is found by its own id when ids are unique. -/
theorem getNode_mem_nodup : ∀ {l : List Node}, (l.map Node.id).Nodup →
    ∀ {c : Node}, c ∈ l → getNode l c.id = some c := by
  intro l
  induction l with
  | nil => intro _ c hc; cases hc
  | cons a t ih =>
    intro hnd c hc
    rw [List.map_cons] at hnd
    have hnd' := List.nodup_cons.mp hnd
    rcases List.mem_cons.mp hc with rfl | hct
    · simp [getNode]
    · have hne : (a.id == c.id) = false := by
        have : c.id ∈ t.map Node.id := List.mem_map.mpr ⟨c, hct, rfl⟩
        simp only [beq_eq_false_iff_ne, ne_eq]
        intro he
        exact hnd'.1 (he ▸ this)
      unfold getNode
      rw [List.find?_cons_of_neg _ (by simp [hne])]
      exact ih hnd'.2 hct

theorem getNode_id {l : List Node} {id : String} {n : Node}
    (h : getNode l id = some n) : n.id = id := by
  have := List.find?_some h
  simpa using this

theorem dirChildIDs_mem {nodes : List Node} {pid cid : String}
    (h : cid ∈ dirChildIDs nodes pid) :
    ∃ c, c ∈ nodes ∧ c.isDirectory = true ∧ c.id = cid := by
  unfold dirChildIDs getChildNodes at h
  obtain ⟨c, hc, rfl⟩ := List.mem_map.mp h
  obtain ⟨hc1, hc2⟩ := List.mem_filter.mp hc
  obtain ⟨hc3, -⟩ := List.mem_filter.mp hc1
  exact ⟨c, hc3, hc2, rfl⟩

theorem listAux_evolve
    (f : Store → String → Nat → Option (NTree × Store))
    (hf : ∀ s cid d t s', f s cid d = some (t, s') → nodesEvolve s.nodes s'.nodes) :
    ∀ (cids : List String) (s : Store) (d : Nat) (ts : NTreeList) (s' : Store),
      createTreeListAux f s cids d = some (ts, s') → nodesEvolve s.nodes s'.nodes := by
  intro cids
  induction cids with
  | nil =>
    intro s d ts s' h
    simp only [createTreeListAux] at h
    cases h
    exact nodesEvolve_refl _
  | cons cid rest ih =>
    intro s d ts s' h
    simp only [createTreeListAux] at h
    split at h
    · exact absurd h (by simp)
    rename_i t s₁ hft
    split at h
    · exact absurd h (by simp)
    rename_i ts₁ s₂ hrest
    cases h
    exact nodesEvolve_trans (hf _ _ _ _ _ hft) (ih _ _ _ _ hrest)

theorem treeAux_evolve : ∀ (fuel : Nat) (s : Store) (pid : String) (d : Nat) (t : NTree)
    (s' : Store), createTreeAux fuel s pid d = some (t, s') →
    nodesEvolve s.nodes s'.nodes := by
  intro fuel
  induction fuel with
  | zero => intro s pid d t s' h; simp [createTreeAux] at h
  | succ fuel ih =>
    intro s pid d t s' h
    simp only [createTreeAux] at h
    split at h
    · exact absurd h (by simp)
    rename_i n hn
    split at h
    · exact absurd h (by simp)
    rename_i ts s₂ hlist
    cases h
    exact nodesEvolve_trans (setNodeDepth_evolve s pid d)
      (listAux_evolve (createTreeAux fuel) (fun s c d t s' => ih s c d t s')
        _ _ _ _ _ hlist)

theorem listAux_spec
    (f : Store → String → Nat → Option (NTree × Store))
    (hev : ∀ s cid d t s', f s cid d = some (t, s') → nodesEvolve s.nodes s'.nodes)
    (hf : ∀ s cid d t s', (s.nodes.map Node.id).Nodup → f s cid d = some (t, s') →
      (∃ n, getNode s.nodes cid = some n ∧ t.node = { n with depth := some d }) ∧
      ((∃ n, getNode s.nodes cid = some n ∧ n.isDirectory = true) →
        ∀ m ∈ treeNodes t, m.isDirectory = true)) :
    ∀ (cids : List String) (s : Store) (d : Nat) (ts : NTreeList) (s' : Store),
      (s.nodes.map Node.id).Nodup →
      createTreeListAux f s cids d = some (ts, s') →
      ts.roots.map Node.id = cids ∧
      (∀ c ∈ ts.roots, c.depth = some d) ∧
      ((∀ cid ∈ cids, ∃ n, getNode s.nodes cid = some n ∧ n.isDirectory = true) →
        ∀ m ∈ treeNodesList ts, m.isDirectory = true) := by
  intro cids
  induction cids with
  | nil =>
    intro s d ts s' hnd h
    simp only [createTreeListAux] at h
    cases h
    refine ⟨rfl, ?_, ?_⟩
    · intro c hc
      simp [NTreeList.roots] at hc
    · intro _ m hm
      simp [treeNodesList] at hm
  | cons cid rest ih =>
    intro s d ts s' hnd h
    simp only [createTreeListAux] at h
    split at h
    · exact absurd h (by simp)
    rename_i t s₁ hft
    split at h
    · exact absurd h (by simp)
    rename_i ts₁ s₂ hrest
    cases h
    obtain ⟨⟨n, hn, hnode⟩, htdirs⟩ := hf s cid d t s₁ hnd hft
    have hev1 : nodesEvolve s.nodes s₁.nodes := hev _ _ _ _ _ hft
    have hnd1 : (s₁.nodes.map Node.id).Nodup := by
      rw [nodesEvolve_id_map hev1]
      exact hnd
    obtain ⟨hroots, hdepth, hdirs⟩ := ih s₁ d _ _ hnd1 hrest
    refine ⟨?_, ?_, ?_⟩
    · simp only [NTreeList.roots, List.map_cons, hroots, hnode]
      rw [getNode_id hn]
    · intro c hc
      simp only [NTreeList.roots] at hc
      rcases List.mem_cons.mp hc with rfl | hcr
      · rw [hnode]
      · exact hdepth c hcr
    · intro hall m hm
      simp only [treeNodesList] at hm
      rcases List.mem_append.mp hm with hmt | hml
      · exact htdirs (hall cid (by simp)) m hmt
      · refine hdirs ?_ m hml
        intro cid' hcid'
        obtain ⟨n', hn', hdir'⟩ := hall cid' (by simp [hcid'])
        obtain ⟨m', hm', hsm', -⟩ := nodesEvolve_getNode hev1 hn'
        refine ⟨m', hm', ?_⟩
        rw [stripDepth_isDirectory hsm']
        exact hdir'

theorem treeAux_spec : ∀ (fuel : Nat) (s : Store) (pid : String) (d : Nat) (t : NTree)
    (s' : Store), (s.nodes.map Node.id).Nodup →
    createTreeAux fuel s pid d = some (t, s') →
    (∃ n, getNode s.nodes pid = some n ∧ t.node = { n with depth := some d }) ∧
    ((∃ n, getNode s.nodes pid = some n ∧ n.isDirectory = true) →
      ∀ m ∈ treeNodes t, m.isDirectory = true) ∧
    t.children.roots.map Node.id = dirChildIDs s.nodes pid ∧
    (∀ c ∈ t.children.roots, c.depth = some (d + 1)) := by
  intro fuel
  induction fuel with
  | zero =>
    intro s pid d t s' hnd h
    simp [createTreeAux] at h
  | succ fuel ih =>
    intro s pid d t s' hnd h
    simp only [createTreeAux] at h
    split at h
    · exact absurd h (by simp)
    rename_i n hn
    split at h
    · exact absurd h (by simp)
    rename_i ts s₂ hlist
    cases h
    have hev1 := setNodeDepth_evolve s pid d
    have hnd1 : ((setNodeDepth s pid d).nodes.map Node.id).Nodup := by
      rw [nodesEvolve_id_map hev1]
      exact hnd
    obtain ⟨hroots, hdepth, hdirs⟩ :=
      listAux_spec (createTreeAux fuel)
        (fun s c d t s' => treeAux_evolve fuel s c d t s')
        (fun s c d t s' hnd h => ⟨(ih s c d t s' hnd h).1, (ih s c d t s' hnd h).2.1⟩)
        (dirChildIDs (setNodeDepth s pid d).nodes pid) (setNodeDepth s pid d)
        (d + 1) _ _ hnd1 hlist
    refine ⟨⟨n, hn, rfl⟩, ?_, ?_, ?_⟩
    · rintro ⟨r, hr, hrdir⟩ m hm
      rw [hn] at hr
      cases Option.some.inj hr
      simp only [treeNodes, NTree.node] at hm
      rcases List.mem_cons.mp hm with rfl | hml
      · exact hrdir
      · refine hdirs ?_ m hml
        intro cid hcid
        obtain ⟨c, hcmem, hcdir, rfl⟩ := dirChildIDs_mem hcid
        exact ⟨c, getNode_mem_nodup hnd1 hcmem, hcdir⟩
    · simp only [NTree.children]
      rw [hroots, dirChildIDs_evolve hev1]
    · simp only [NTree.children]
      exact hdepth

/-- **C8.**  `createTree(rootID)` returns the node at `rootID` annotated
with the given depth, paired with an ordered list of subtrees — one per
child Directory node only (same ids, in snapshot order), each annotated
with depth + 1 — and, when the root is a Directory, every node anywhere in
the returned structure is a Directory: text/image/anchor children never
appear.  (Stated for any fuel on which the recursion completes; a cyclic
parent graph never completes.) -/
theorem buildTree_spec (fuel : Nat) (s : Store) (rootID : String) (d : Nat)
    (r : Node) (t : NTree) (s' : Store)
    (hnd : (s.nodes.map Node.id).Nodup)
    (hroot : getNode s.nodes rootID = some r)
    (hdir : r.isDirectory = true)
    (hrun : createTreeAux fuel s rootID d = some (t, s')) :
    t.node = { r with depth := some d } ∧
    t.children.roots.map Node.id = dirChildIDs s.nodes rootID ∧
    (∀ c ∈ t.children.roots, c.depth = some (d + 1)) ∧
    (∀ m ∈ treeNodes t, m.isDirectory = true) := by
  obtain ⟨⟨n, hn, hnode⟩, hdirs, hroots, hdepth⟩ :=
    treeAux_spec fuel s rootID d t s' hnd hrun
  rw [hroot] at hn
  cases Option.some.inj hn
  exact ⟨hnode, hroots, hdepth, hdirs ⟨r, hroot, hdir⟩⟩

/-- Witness for `buildTree_spec`: root D with child directory E and child
TextNode T — the build yields D (depth 0) with one subtree E (depth 1) and
no text node anywhere. -/
theorem buildTree_spec_witness :
    ∃ t s', createTreeAux 2 treeStore "d" 0 = some (t, s') ∧
      (t.node = { mkDir "d" none 0 "D" with depth := some 0 } ∧
        t.children.roots.map Node.id = dirChildIDs treeStore.nodes "d" ∧
        (∀ c ∈ t.children.roots, c.depth = some (0 + 1)) ∧
        (∀ m ∈ treeNodes t, m.isDirectory = true)) :=
  ⟨_, _, rfl, buildTree_spec 2 treeStore "d" 0 (mkDir "d" none 0 "D") _ _
      (by decide) (by decide) (by decide) rfl⟩

/-- **C10.**  `createTree` mutates the published snapshot: the
`node.depth = depth` write lands on the very node record held in the
store's current `nodes` snapshot (after the write, looking the node up in
the store yields it with `depth` set), and after any completed
`createTree` call the node value observers hold at `parentID` carries a
`depth` annotation. -/
theorem createTree_mutates_snapshot (s : Store) (pid : String) (d : Nat) (r : Node)
    (hroot : getNode s.nodes pid = some r) :
    getNode (setNodeDepth s pid d).nodes pid = some { r with depth := some d } ∧
    (∀ (fuel : Nat) (t : NTree) (s' : Store),
      createTreeAux fuel s pid d = some (t, s') →
      ∃ m, getNode s'.nodes pid = some m ∧ m.depth.isSome = true) := by
  have hpart1 : getNode (setNodeDepth s pid d).nodes pid
      = some { r with depth := some d } := by
    obtain ⟨k, hidx, hget⟩ := find?_eq_some_iff_findIdx?.mp hroot
    obtain ⟨hklt, hpk, hprev⟩ := List.findIdx?_eq_some_iff_getElem.mp hidx
    obtain ⟨hklt2, hrk⟩ := List.getElem?_eq_some_iff.mp hget
    simp only [setNodeDepth, hidx, hget]
    apply find?_eq_some_iff_findIdx?.mpr
    have h1 : k < (s.nodes.set k { r with depth := some d }).length := by
      simpa using hklt
    refine ⟨k, ?_, List.getElem?_set_self hklt⟩
    apply List.findIdx?_eq_some_iff_getElem.mpr
    refine ⟨h1, ?_, ?_⟩
    · simp only [List.getElem_set_self]
      rw [hrk] at hpk
      simpa using hpk
    · intro j hj
      have hne : k ≠ j := fun he => absurd he.symm (Nat.ne_of_lt hj)
      simp only [List.getElem_set_ne hne]
      exact hprev j hj
  refine ⟨hpart1, ?_⟩
  intro fuel t s' h
  cases fuel with
  | zero => simp [createTreeAux] at h
  | succ fuel =>
    simp only [createTreeAux, hroot] at h
    split at h
    · exact absurd h (by simp)
    rename_i ts s₂ hlist
    cases h
    have hev := listAux_evolve (createTreeAux fuel)
      (fun a b c e f => treeAux_evolve fuel a b c e f) _ _ _ _ _ hlist
    obtain ⟨m, hm, hsm, hdm⟩ := nodesEvolve_getNode hev hpart1
    exact ⟨m, hm, hdm (by simp)⟩

/-- Witness for `createTree_mutates_snapshot` at the concrete store. -/
theorem createTree_mutates_snapshot_witness :
    getNode (setNodeDepth treeStore "d" 0).nodes "d"
      = some { mkDir "d" none 0 "D" with depth := some 0 } ∧
    ∃ t s', createTreeAux 2 treeStore "d" 0 = some (t, s') ∧
      ∃ m, getNode s'.nodes "d" = some m ∧ m.depth.isSome = true :=
  ⟨(createTree_mutates_snapshot treeStore "d" 0 (mkDir "d" none 0 "D") (by decide)).1,
   _, _, rfl,
   (createTree_mutates_snapshot treeStore "d" 0 (mkDir "d" none 0 "D") (by decide)).2
     2 _ _ rfl⟩

end UnnamedNote
